import Mathlib

/-!
Verification of the mycoverage backend (`backend/server.js` and its sibling
variant): the section-tree builder, the selection-closure expander, the
coverage aggregator, pagination, classification and percentage rendering.

Shallow embedding conventions:
* JS numbers used as ids are `Nat`; a `parent_id` of JS `null` is `none`.
* A JS object used as a map (`sectionMap`, `parentMap`) is modelled by lookup
  on the section list; assignment is last-wins, so lookups search the
  reversed list.
* The `while` loops that walk `parent_id` pointers upward can diverge in JS
  (there is no visited-set guard), so they are embedded with explicit fuel
  and return `none` when the fuel runs out; `some` results are exactly the
  values the JS loop produces when it terminates.
* IEEE doubles are idealized as exact rationals and `toFixed(1)` as
  round-half-up to one decimal; every value the claims exercise is exactly
  representable, so the idealization is invisible there.
-/

/-- A JS value as it can appear in the `custom_automation` field of a
TestRail case: a number, a string, `null`, or absent (`undefined`). -/
inductive JSVal where
  | num (n : Int)
  | str (s : String)
  | null
  | undef
  deriving DecidableEq

/-- Accumulate decimal digits; `none` on a non-digit character. -/
def digitsToNat (acc : Nat) : List Char → Option Nat
  | [] => some acc
  | c :: r =>
    if c.isDigit then digitsToNat (acc * 10 + (c.toNat - 48)) r else none

/-- `Number(s)` on a string: the empty string is `0`, an optionally
negated run of decimal digits is its value, anything else is NaN
(`none`).  (JS also accepts whitespace, fractions and exponents; the
status-code strings this program coerces — `"1"`, `"2"`, `"3"` — are
plain decimal integers, for which this model is exact.) -/
def strToNumber (s : String) : Option Int :=
  match s.toList with
  | [] => some 0
  | '-' :: rest =>
    if rest.isEmpty then none
    else (digitsToNat 0 rest).map (fun n => -(n : Int))
  | l => (digitsToNat 0 l).map (fun n => (n : Int))

/-- Model of the JS `Number(...)` coercion applied by the classification
loop (`Number(testCase.custom_automation)`): numbers pass through,
`null` becomes `0`, `undefined` becomes NaN (modelled as `none`), and a
string is parsed as a decimal integer (NaN, i.e. `none`, when it does not
parse).  The claims only exercise decimal strings such as `"1"`. -/
def toNumber : JSVal → Option Int
  | .num n => some n
  | .str s => strToNumber s
  | .null => some 0
  | .undef => none

/-- A TestRail section record as consumed by the backend:
`{ id, name, parent_id }` with `parent_id : integer | null`. -/
structure Sec where
  id : Nat
  name : String
  parent_id : Option Nat
  deriving DecidableEq

/-- A TestRail test case as consumed by the classification loop. -/
structure TestCase where
  id : Int
  title : String
  custom_automation : JSVal
  deriving DecidableEq

/-- Lookup of `sectionMap[i]` / the section that JS object assignment
`map[section.id] = ...` leaves for id `i`: the last section in the list
with that id. -/
def findSec (sections : List Sec) (i : Nat) : Option Sec :=
  sections.reverse.find? (fun s => s.id == i)

/-- `parentMap[i]` as used by the ancestor walks in `/api/testrail/data`:
`none` when `i` has no entry (JS `undefined`) or its `parent_id` is JS
`null` — both are falsy and stop the walk the same way. -/
def parentOf (sections : List Sec) (i : Nat) : Option Nat :=
  (findSec sections i).bind (fun s => s.parent_id)

/-- The attach condition of the map-based `buildTree`
(`section.parent_id !== null && section.parent_id !== 0 &&
sectionMap[section.parent_id]`). -/
def attachB (sections : List Sec) (s : Sec) : Bool :=
  match s.parent_id with
  | none => false
  | some q => q != 0 && sections.any (fun t => t.id == q)

/-- Ids of the children pushed onto the node of id `p` by the second pass
of `buildTree`, in input order. -/
def childIds (sections : List Sec) (p : Nat) : List Nat :=
  (sections.filter (fun s => attachB sections s && s.parent_id == some p)).map (fun s => s.id)

/-- Ids pushed onto the `roots` array by `buildTree`, in input order. -/
def rootIds (sections : List Sec) : List Nat :=
  (sections.filter (fun s => !attachB sections s)).map (fun s => s.id)

/-- A node of the built section tree: `{ ...section, children: [] }` with
children attached by the second pass. -/
inductive SNode where
  | mk (id : Nat) (name : String) (parent_id : Option Nat) (children : List SNode)

/-- The id stored in a tree node. -/
def SNode.sid : SNode → Nat
  | .mk i _ _ _ => i

/-- `omap f l` is `l.mapM f` for the `Option` monad, written out so that
its equations are directly available: `none` as soon as one element maps
to `none`. -/
def omap (f : α → Option β) : List α → Option (List β)
  | [] => some []
  | a :: r =>
    match f a, omap f r with
    | some b, some bs => some (b :: bs)
    | _, _ => none

/-- The tree node built for id `i` (with `fuel` bounding the recursion
depth; the JS builder's sharing of map nodes realizes exactly this
recursive structure for the acyclic inputs the claims quantify over). -/
def buildNode (sections : List Sec) : Nat → Nat → Option SNode
  | 0, _ => none
  | fuel + 1, i =>
    match findSec sections i with
    | none => none
    | some s =>
      (omap (buildNode sections fuel) (childIds sections i)).map
        (fun cs => SNode.mk i s.name s.parent_id cs)

/-- The forest returned by `buildTree sections`: one tree per entry of the
`roots` array. -/
def buildForest (sections : List Sec) (fuel : Nat) : Option (List SNode) :=
  omap (buildNode sections fuel) (rootIds sections)

/-- Pre-order flattening of a built tree, collecting ids. -/
def flatten : SNode → List Nat
  | .mk i _ _ cs => i :: (cs.attach.map (fun c => flatten c.1)).flatten
  decreasing_by
    have := List.sizeOf_lt_of_mem c.2
    simp only [SNode.mk.sizeOf_spec]
    omega

/-- The ancestor walk of the closure expander
(`while (current && current !== 0) { add(current); current = parentMap[current]; }`)
started at a value `cur` of `current`; returns the list of ids added, in
order, or `none` if `fuel` iterations did not suffice (the JS loop is
still running — with a cyclic parent graph it never stops). -/
def ancestorWalk (sections : List Sec) : Nat → Option Nat → Option (List Nat)
  | _, none => some []
  | _, some 0 => some []
  | 0, some (_ + 1) => none
  | fuel + 1, some (p + 1) =>
    (ancestorWalk sections fuel (parentOf sections (p + 1))).map (fun l => (p + 1) :: l)

/-- The descendant check of the closure expander: walk the ancestor chain
from `cur` and report whether a selected id is met
(`if (selectedIds.includes(current)) { ...; break; }`); `none` if `fuel`
iterations did not suffice. -/
def hasSelectedAncestor (sections : List Sec) (selected : List Nat) :
    Nat → Option Nat → Option Bool
  | _, none => some false
  | _, some 0 => some false
  | 0, some (_ + 1) => none
  | fuel + 1, some (p + 1) =>
    if (p + 1) ∈ selected then some true
    else hasSelectedAncestor sections selected fuel (parentOf sections (p + 1))

/-- Ids added to `allFolderIdsSet` by the ancestor loop: for each selected
id in order, its ancestor chain. -/
def ancestorsOfSelected (sections : List Sec) (selected : List Nat) (fuel : Nat) :
    Option (List Nat) :=
  (omap (fun i => ancestorWalk sections fuel (parentOf sections i)) selected).map List.flatten

/-- Ids added to `allFolderIdsSet` by the descendant loop: each section
whose ancestor-chain walk meets a selected id. -/
def descendantIds (sections : List Sec) (selected : List Nat) (fuel : Nat) :
    Option (List Nat) :=
  (omap (fun s =>
      (hasSelectedAncestor sections selected fuel (parentOf sections s.id)).map
        (fun b => if b then [s.id] else []))
    sections).map List.flatten

/-- The full addition sequence into `allFolderIdsSet`: the selected ids,
then the ancestors of each selected id, then the sections with a selected
ancestor.  Membership in this list is membership in the JS `Set`. -/
def closureIds (sections : List Sec) (selected : List Nat) (fuel : Nat) :
    Option (List Nat) :=
  match ancestorsOfSelected sections selected fuel,
        descendantIds sections selected fuel with
  | some anc, some desc => some (selected ++ anc ++ desc)
  | _, _ => none

/-- Helper for `dedupFirst`: skip elements already seen. -/
def dedupGo (seen : List Nat) : List Nat → List Nat
  | [] => []
  | a :: r => if a ∈ seen then dedupGo seen r else a :: dedupGo (a :: seen) r

/-- `Array.from(set)` for a JS `Set` populated by the addition sequence
`l`: first occurrences, in insertion order. -/
def dedupFirst (l : List Nat) : List Nat :=
  dedupGo [] l

/-- The `totalCounts` object `{ Yes, 'Automation Candidate', No }`. -/
structure Counts where
  yes : Nat
  candidate : Nat
  no : Nat
  deriving DecidableEq

/-- The mutable state of the classification loop: `totalCounts`,
`candidateTests` and `noTests`. -/
structure AggState where
  counts : Counts
  candidateTests : List (Int × String)
  noTests : List (Int × String)
  deriving DecidableEq

/-- One iteration of the classification `forEach`: branch on
`Number(testCase.custom_automation)` being `1`, `3`, `2`, or anything
else (the last two branches have identical bodies, as in the source). -/
def classifyStep (st : AggState) (tc : TestCase) : AggState :=
  let v := toNumber tc.custom_automation
  if v = some 1 then
    { st with counts := { st.counts with yes := st.counts.yes + 1 } }
  else if v = some 3 then
    { st with
      counts := { st.counts with candidate := st.counts.candidate + 1 }
      candidateTests := st.candidateTests ++ [(tc.id, tc.title)] }
  else if v = some 2 then
    { st with
      counts := { st.counts with no := st.counts.no + 1 }
      noTests := st.noTests ++ [(tc.id, tc.title)] }
  else
    { st with
      counts := { st.counts with no := st.counts.no + 1 }
      noTests := st.noTests ++ [(tc.id, tc.title)] }

/-- The whole classification loop, starting from zero counts and empty
lists. -/
def classifyAll (cases : List TestCase) : AggState :=
  cases.foldl classifyStep ⟨⟨0, 0, 0⟩, [], []⟩

/-- A JSON value that is either a string (a rendered percentage) or a
number (the literal `0` of the empty-total branch). -/
inductive JNum where
  | str (s : String)
  | num (n : Nat)
  deriving DecidableEq

/-- `x.toFixed(1)` for the nonnegative rationals produced by the
percentage computation: round half up to one decimal and print with one
digit after the point. -/
def toFixed1 (q : ℚ) : String :=
  let r : ℚ := q * 10 + 1 / 2
  let n : Int := Int.fdiv r.num (r.den : Int)
  toString (n / 10) ++ "." ++ toString (n % 10)

/-- `total` as computed in the endpoint:
`totalCounts.Yes + totalCounts['Automation Candidate'] + totalCounts.No`. -/
def totalOf (c : Counts) : Nat :=
  c.yes + c.candidate + c.no

/-- The `percentages` object: each count over the total times 100,
rendered with `toFixed(1)`, or the numeric zeros when the total is 0. -/
def percentagesOf (c : Counts) : JNum × JNum × JNum :=
  if totalOf c > 0 then
    (JNum.str (toFixed1 ((c.yes : ℚ) / (totalOf c : ℚ) * 100)),
     JNum.str (toFixed1 ((c.candidate : ℚ) / (totalOf c : ℚ) * 100)),
     JNum.str (toFixed1 ((c.no : ℚ) / (totalOf c : ℚ) * 100)))
  else
    (JNum.num 0, JNum.num 0, JNum.num 0)

/-- `overallCoverage = percentages.Yes`. -/
def overallOf (c : Counts) : JNum :=
  (percentagesOf c).1

/-- The JSON body sent on success:
`{ totalCounts, percentages, overallCoverage, candidateTests, noTests }`. -/
structure CoverageResult where
  totalCounts : Counts
  percentages : JNum × JNum × JNum
  overallCoverage : JNum
  candidateTests : List (Int × String)
  noTests : List (Int × String)
  deriving DecidableEq

/-- Classification plus percentage computation on a fetched case list. -/
def computeCoverage (cases : List TestCase) : CoverageResult :=
  let st := classifyAll cases
  { totalCounts := st.counts
    percentages := percentagesOf st.counts
    overallCoverage := overallOf st.counts
    candidateTests := st.candidateTests
    noTests := st.noTests }

/-- `fetchTestCasesForSection(id).catch(err => [])`: a failed per-section
fetch contributes an empty case list instead of propagating the error. -/
def fetchCaught (fetcher : Nat → Except String (List TestCase)) (i : Nat) :
    List TestCase :=
  match fetcher i with
  | .ok cs => cs
  | .error _ => []

/-- The `/api/testrail/data` handler after validation, over an abstract
section-list result and per-section case fetcher: `.error` (a 500) when
the section list cannot be fetched, otherwise the closure of the selected
ids is computed, cases are fetched per unique closure id with per-id
error recovery, and the aggregated `CoverageResult` is returned with 200
(`.ok`).  `none` when the closure walks diverge (the JS handler never
responds). -/
def dataEndpoint (sectionsRes : Except String (List Sec))
    (fetcher : Nat → Except String (List TestCase))
    (folderIds : List Nat) (fuel : Nat) : Option (Except String CoverageResult) :=
  match sectionsRes with
  | .error _ => some (.error "Error fetching test case statistics from TestRail")
  | .ok sections =>
    match closureIds sections folderIds fuel with
    | none => none
    | some l =>
      let ids := dedupFirst l
      let allTestCases := (ids.map (fetchCaught fetcher)).flatten
      some (.ok (computeCoverage allTestCases))

/-- The paginated fetch `do { batch = source(offset); acc = acc.concat(batch);
fetched = batch.length; offset += fetched; } while (fetched === limit)`
shared by `fetchAllSections` and `fetchTestCasesForSection`, with the
number of fetch calls issued; `none` when `fuel` iterations did not
suffice. -/
def fetchLoop (source : Nat → List α) (limit : Nat) :
    Nat → Nat → List α → Nat → Option (List α × Nat)
  | 0, _, _, _ => none
  | fuel + 1, offset, acc, calls =>
    if (source offset).length = limit then
      fetchLoop source limit fuel (offset + (source offset).length)
        (acc ++ source offset) (calls + 1)
    else
      some (acc ++ source offset, calls + 1)

/-- `fetchAllSections`: page through the section source with `limit = 250`. -/
def fetchAllSections (source : Nat → List Sec) (fuel : Nat) :
    Option (List Sec × Nat) :=
  fetchLoop source 250 fuel 0 [] 0

/-- `fetchTestCasesForSection`: page through the case source of one
section with `limit = 250`. -/
def fetchCasesForSection (source : Nat → Nat → List TestCase) (sectionId : Nat)
    (fuel : Nat) : Option (List TestCase × Nat) :=
  fetchLoop (source sectionId) 250 fuel 0 [] 0

/-- A three-section forest used as concrete input: section 1 is a root,
sections 2 and 3 are its children. -/
def exSecs : List Sec :=
  [⟨1, "a", none⟩, ⟨2, "b", some 1⟩, ⟨3, "c", some 1⟩]

/-- A two-section list whose parent pointers form a cycle: 1's parent is
2 and 2's parent is 1. -/
def cycSecs : List Sec :=
  [⟨1, "a", some 2⟩, ⟨2, "b", some 1⟩]

/-- A case fetcher that fails for section 2 and returns one automated
case for every other section. -/
def exFetcher : Nat → Except String (List TestCase) :=
  fun i => if i = 2 then .error "upstream 500" else .ok [⟨Int.ofNat i, "t", .num 1⟩]

/-- A paged source: a full page of 250 at offset 0, then a partial page. -/
def exPages : Nat → List Nat :=
  fun offset => if offset = 0 then List.replicate 250 0 else [7]

/-- The ancestor chain of id `x` (the list the ancestor walk from `x`
produces), `[]` when the walk does not complete within fuel `F`. -/
def chainOf (S : List Sec) (F : Nat) (x : Nat) : List Nat :=
  (ancestorWalk S F (parentOf S x)).getD []

/-- Chain length — the depth measure used in the tree round-trip proof. -/
def dpt (S : List Sec) (F : Nat) (x : Nat) : Nat :=
  (chainOf S F x).length

/-- `x` followed by its ancestor chain. -/
def selfChain (S : List Sec) (F : Nat) (x : Nat) : List Nat :=
  x :: chainOf S F x

/-- The ancestor walk from `x` completes within fuel `F`. -/
def walkDone (S : List Sec) (F : Nat) (x : Nat) : Prop :=
  (ancestorWalk S F (parentOf S x)).isSome = true

/-- Every section's ancestor walk completes within fuel `F` — the
operational form of "the parent graph has no cycles". -/
def WalksComplete (S : List Sec) (F : Nat) : Prop :=
  ∀ s ∈ S, walkDone S F s.id

/-- Pre-order traversal of the child graph of the built tree, collecting
ids, with fuel bounding the depth. -/
def preorder (S : List Sec) : Nat → Nat → List Nat
  | 0, _ => []
  | fuel + 1, i => i :: ((childIds S i).map (preorder S fuel)).flatten

/-- The ids of the sections whose self-or-ancestor chain passes through
`i` — the intended node set of the subtree rooted at `i`. -/
def descList (S : List Sec) (F : Nat) (i : Nat) : List Nat :=
  (S.filter (fun s => decide (i ∈ selfChain S F s.id))).map (fun s => s.id)

/-- A list with an orphan section: 4's `parent_id` is 9, which is not an
id of the list. -/
def orphSecs : List Sec :=
  [⟨4, "d", some 9⟩, ⟨1, "a", none⟩]

/-- The forest `buildTree` constructs from `exSecs`. -/
def exForest : List SNode :=
  [SNode.mk 1 "a" none [SNode.mk 2 "b" (some 1) [], SNode.mk 3 "c" (some 1) []]]

/-! ### Generic helpers -/

theorem omap_mem_some {f : α → Option β} :
    ∀ {l : List α} {ys : List β}, omap f l = some ys → ∀ a ∈ l, ∃ y, f a = some y ∧ y ∈ ys := by
  intro l
  induction l with
  | nil => intro ys _ a ha; cases ha
  | cons b r ih =>
    intro ys h a ha
    unfold omap at h
    cases hb : f b with
    | none => rw [hb] at h; cases h
    | some y =>
      rw [hb] at h
      cases hr : omap f r with
      | none => rw [hr] at h; cases h
      | some ys' =>
        rw [hr] at h
        cases h
        rcases List.mem_cons.mp ha with h1 | h1
        · exact ⟨y, h1 ▸ hb, List.mem_cons_self _ _⟩
        · obtain ⟨y', hy', hmem⟩ := ih hr a h1
          exact ⟨y', hy', List.mem_cons_of_mem _ hmem⟩

theorem sum_indicator_eq_countP (Q : α → Bool) :
    ∀ l : List α, (l.map (fun a => if Q a then 1 else 0)).sum = l.countP Q := by
  intro l
  induction l with
  | nil => rfl
  | cons a r ih =>
    simp only [List.map_cons, List.sum_cons, List.countP_cons, ih]
    by_cases h : Q a
    · simp [h]; omega
    · simp [h]

theorem countP_eq_one_of_unique {Q : α → Bool} :
    ∀ {l : List α}, l.Nodup → (∀ a ∈ l, Q a → ∀ b ∈ l, Q b → a = b) →
      l.countP Q = if ∃ a ∈ l, Q a then 1 else 0 := by
  intro l
  induction l with
  | nil => simp
  | cons a r ih =>
    intro hnd huniq
    rcases List.nodup_cons.mp hnd with ⟨hna, hndr⟩
    have hr := ih hndr (fun x hx hQx y hy hQy =>
      huniq x (List.mem_cons_of_mem _ hx) hQx y (List.mem_cons_of_mem _ hy) hQy)
    rw [List.countP_cons, hr]
    by_cases hQa : Q a
    · have hzero : ¬ ∃ b ∈ r, Q b := by
        rintro ⟨b, hb, hQb⟩
        have hba : b = a := huniq b (.tail _ hb) hQb a (.head _) hQa
        exact hna (hba ▸ hb)
      have hex : ∃ b ∈ a :: r, Q b := ⟨a, .head _, hQa⟩
      simp [hzero, hex, hQa]
    · by_cases hex : ∃ b ∈ r, Q b
      · have hex' : ∃ b ∈ a :: r, Q b := by
          rcases hex with ⟨b, hb, hQb⟩
          exact ⟨b, .tail _ hb, hQb⟩
        simp [hex, hex', hQa]
      · have hex' : ¬ ∃ b ∈ a :: r, Q b := by
          rintro ⟨b, hb, hQb⟩
          rcases List.mem_cons.mp hb with rfl | hb'
          · exact hQa hQb
          · exact hex ⟨b, hb', hQb⟩
        simp [hex, hex', hQa]

/-! ### Walk unfolding, monotonicity and membership lemmas -/

theorem ancestorWalk_none (S : List Sec) (f : Nat) : ancestorWalk S f none = some [] := by
  cases f <;> rfl

theorem ancestorWalk_some_zero (S : List Sec) (f : Nat) :
    ancestorWalk S f (some 0) = some [] := by
  cases f <;> rfl

theorem ancestorWalk_zero (S : List Sec) {p : Nat} (hp : p ≠ 0) :
    ancestorWalk S 0 (some p) = none := by
  cases p with
  | zero => exact absurd rfl hp
  | succ q => rfl

theorem ancestorWalk_succ (S : List Sec) (f : Nat) {p : Nat} (hp : p ≠ 0) :
    ancestorWalk S (f + 1) (some p) =
      (ancestorWalk S f (parentOf S p)).map (fun l => p :: l) := by
  cases p with
  | zero => exact absurd rfl hp
  | succ q => rfl

theorem ancestorWalk_mono :
    ∀ {f f' : Nat} {c : Option Nat} {l : List Nat}, f ≤ f' →
      ancestorWalk S f c = some l → ancestorWalk S f' c = some l := by
  intro f
  induction f with
  | zero =>
    intro f' c l _ h
    cases c with
    | none => rw [ancestorWalk_none] at h; rw [ancestorWalk_none]; exact h
    | some p =>
      cases p with
      | zero => rw [ancestorWalk_some_zero] at h ⊢; exact h
      | succ q => rw [ancestorWalk_zero S (Nat.succ_ne_zero q)] at h; cases h
  | succ g ih =>
    intro f' c l hle h
    cases c with
    | none => rw [ancestorWalk_none] at h ⊢; exact h
    | some p =>
      cases p with
      | zero => rw [ancestorWalk_some_zero] at h ⊢; exact h
      | succ q =>
        obtain ⟨f'', rfl⟩ : ∃ f'', f' = f'' + 1 := by
          cases f' with
          | zero => omega
          | succ x => exact ⟨x, rfl⟩
        rw [ancestorWalk_succ S g (Nat.succ_ne_zero q)] at h
        rw [ancestorWalk_succ S f'' (Nat.succ_ne_zero q)]
        obtain ⟨l0, hl0, rfl⟩ := Option.map_eq_some'.mp h
        rw [ih (by omega) hl0]
        rfl

theorem ancestorWalk_head {S : List Sec} :
    ∀ {f : Nat} {p : Nat} {l : List Nat}, p ≠ 0 →
      ancestorWalk S f (some p) = some l → p ∈ l := by
  intro f p l hp h
  cases f with
  | zero => rw [ancestorWalk_zero S hp] at h; cases h
  | succ g =>
    rw [ancestorWalk_succ S g hp] at h
    obtain ⟨l0, _, rfl⟩ := Option.map_eq_some'.mp h
    exact List.mem_cons_self _ _

theorem ancestorWalk_length :
    ∀ {f : Nat} {c : Option Nat} {l : List Nat},
      ancestorWalk S f c = some l → l.length ≤ f := by
  intro f
  induction f with
  | zero =>
    intro c l h
    cases c with
    | none => rw [ancestorWalk_none] at h; cases h; simp
    | some p =>
      cases p with
      | zero => rw [ancestorWalk_some_zero] at h; cases h; simp
      | succ q => rw [ancestorWalk_zero S (Nat.succ_ne_zero q)] at h; cases h
  | succ g ih =>
    intro c l h
    cases c with
    | none => rw [ancestorWalk_none] at h; cases h; simp
    | some p =>
      cases p with
      | zero => rw [ancestorWalk_some_zero] at h; cases h; simp
      | succ q =>
        rw [ancestorWalk_succ S g (Nat.succ_ne_zero q)] at h
        obtain ⟨l0, hl0, rfl⟩ := Option.map_eq_some'.mp h
        have := ih hl0
        simp [List.length_cons]
        omega

theorem mem_ancestorWalk_parent {S : List Sec} :
    ∀ {f : Nat} {c : Option Nat} {l : List Nat} {x p : Nat},
      ancestorWalk S f c = some l → x ∈ l → parentOf S x = some p → p ≠ 0 → p ∈ l := by
  intro f
  induction f with
  | zero =>
    intro c l x p h hx _ _
    cases c with
    | none => rw [ancestorWalk_none] at h; cases h; cases hx
    | some q =>
      cases q with
      | zero => rw [ancestorWalk_some_zero] at h; cases h; cases hx
      | succ q' => rw [ancestorWalk_zero S (Nat.succ_ne_zero q')] at h; cases h
  | succ g ih =>
    intro c l x p h hx hpar hp
    cases c with
    | none => rw [ancestorWalk_none] at h; cases h; cases hx
    | some q =>
      cases q with
      | zero => rw [ancestorWalk_some_zero] at h; cases h; cases hx
      | succ q' =>
        rw [ancestorWalk_succ S g (Nat.succ_ne_zero q')] at h
        obtain ⟨l0, hl0, rfl⟩ := Option.map_eq_some'.mp h
        rcases List.mem_cons.mp hx with rfl | hx0
        · rw [hpar] at hl0
          exact List.mem_cons_of_mem _ (ancestorWalk_head hp hl0)
        · exact List.mem_cons_of_mem _ (ih hl0 hx0 hpar hp)

theorem hasSelectedAncestor_none (S : List Sec) (sel : List Nat) (f : Nat) :
    hasSelectedAncestor S sel f none = some false := by
  cases f <;> rfl

theorem hasSelectedAncestor_some_zero (S : List Sec) (sel : List Nat) (f : Nat) :
    hasSelectedAncestor S sel f (some 0) = some false := by
  cases f <;> rfl

theorem hasSelectedAncestor_zero (S : List Sec) (sel : List Nat) {p : Nat} (hp : p ≠ 0) :
    hasSelectedAncestor S sel 0 (some p) = none := by
  cases p with
  | zero => exact absurd rfl hp
  | succ q => rfl

theorem hasSelectedAncestor_succ (S : List Sec) (sel : List Nat) (f : Nat) {p : Nat}
    (hp : p ≠ 0) :
    hasSelectedAncestor S sel (f + 1) (some p) =
      if p ∈ sel then some true
      else hasSelectedAncestor S sel f (parentOf S p) := by
  cases p with
  | zero => exact absurd rfl hp
  | succ q => rfl

theorem hasSelectedAncestor_mono {S : List Sec} {sel : List Nat} :
    ∀ {f f' : Nat} {c : Option Nat} {b : Bool}, f ≤ f' →
      hasSelectedAncestor S sel f c = some b →
      hasSelectedAncestor S sel f' c = some b := by
  intro f
  induction f with
  | zero =>
    intro f' c b _ h
    cases c with
    | none => rw [hasSelectedAncestor_none] at h ⊢; exact h
    | some p =>
      cases p with
      | zero => rw [hasSelectedAncestor_some_zero] at h ⊢; exact h
      | succ q => rw [hasSelectedAncestor_zero S sel (Nat.succ_ne_zero q)] at h; cases h
  | succ g ih =>
    intro f' c b hle h
    cases c with
    | none => rw [hasSelectedAncestor_none] at h ⊢; exact h
    | some p =>
      cases p with
      | zero => rw [hasSelectedAncestor_some_zero] at h ⊢; exact h
      | succ q =>
        obtain ⟨f'', rfl⟩ : ∃ f'', f' = f'' + 1 := by
          cases f' with
          | zero => omega
          | succ x => exact ⟨x, rfl⟩
        rw [hasSelectedAncestor_succ S sel g (Nat.succ_ne_zero q)] at h
        rw [hasSelectedAncestor_succ S sel f'' (Nat.succ_ne_zero q)]
        by_cases hmem : (q + 1) ∈ sel
        · rw [if_pos hmem] at h ⊢; exact h
        · rw [if_neg hmem] at h ⊢; exact ih (by omega) h

theorem hasSelectedAncestor_nil_false {S : List Sec} :
    ∀ {f : Nat} {c : Option Nat} {b : Bool},
      hasSelectedAncestor S [] f c = some b → b = false := by
  intro f
  induction f with
  | zero =>
    intro c b h
    cases c with
    | none => rw [hasSelectedAncestor_none] at h; cases h; rfl
    | some p =>
      cases p with
      | zero => rw [hasSelectedAncestor_some_zero] at h; cases h; rfl
      | succ q => rw [hasSelectedAncestor_zero S [] (Nat.succ_ne_zero q)] at h; cases h
  | succ g ih =>
    intro c b h
    cases c with
    | none => rw [hasSelectedAncestor_none] at h; cases h; rfl
    | some p =>
      cases p with
      | zero => rw [hasSelectedAncestor_some_zero] at h; cases h; rfl
      | succ q =>
        rw [hasSelectedAncestor_succ S [] g (Nat.succ_ne_zero q), if_neg (List.not_mem_nil _)] at h
        exact ih h

theorem hasSelectedAncestor_of_mem_walk {S : List Sec} {sel : List Nat} :
    ∀ {f : Nat} {c : Option Nat} {l : List Nat} {a : Nat},
      ancestorWalk S f c = some l → a ∈ l → a ∈ sel →
      hasSelectedAncestor S sel f c = some true := by
  intro f
  induction f with
  | zero =>
    intro c l a h ha _
    cases c with
    | none => rw [ancestorWalk_none] at h; cases h; cases ha
    | some p =>
      cases p with
      | zero => rw [ancestorWalk_some_zero] at h; cases h; cases ha
      | succ q => rw [ancestorWalk_zero S (Nat.succ_ne_zero q)] at h; cases h
  | succ g ih =>
    intro c l a h ha hsel
    cases c with
    | none => rw [ancestorWalk_none] at h; cases h; cases ha
    | some p =>
      cases p with
      | zero => rw [ancestorWalk_some_zero] at h; cases h; cases ha
      | succ q =>
        rw [ancestorWalk_succ S g (Nat.succ_ne_zero q)] at h
        obtain ⟨l0, hl0, rfl⟩ := Option.map_eq_some'.mp h
        rw [hasSelectedAncestor_succ S sel g (Nat.succ_ne_zero q)]
        rcases List.mem_cons.mp ha with rfl | ha0
        · rw [if_pos hsel]
        · by_cases hmem : (q + 1) ∈ sel
          · rw [if_pos hmem]
          · rw [if_neg hmem]
            exact ih hl0 ha0 hsel

/-! ### Claim C3: the ancestor walk on a cyclic parent graph -/

theorem cyc_walk_none : ∀ fuel,
    ancestorWalk cycSecs fuel (some 1) = none ∧
    ancestorWalk cycSecs fuel (some 2) = none := by
  intro fuel
  induction fuel with
  | zero =>
    exact ⟨ancestorWalk_zero _ one_ne_zero, ancestorWalk_zero _ (by omega)⟩
  | succ f ih =>
    refine ⟨?_, ?_⟩
    · rw [ancestorWalk_succ cycSecs f one_ne_zero,
        (by decide : parentOf cycSecs 1 = some 2), ih.2]
      rfl
    · rw [ancestorWalk_succ cycSecs f (by omega : (2 : Nat) ≠ 0),
        (by decide : parentOf cycSecs 2 = some 1), ih.1]
      rfl

/-- Claim C3: refuted by the code — the ancestor walk of the closure
expander has no visited-set guard, so on the cyclic two-section list
`cycSecs`, the walk started from section 1 never terminates: no amount of
fuel makes it produce a result. -/
theorem ancestor_walk_diverges_on_cycle :
    ¬ ∃ fuel l, ancestorWalk cycSecs fuel (parentOf cycSecs 1) = some l := by
  rintro ⟨fuel, l, h⟩
  rw [(by decide : parentOf cycSecs 1 = some 2), (cyc_walk_none fuel).2] at h
  cases h

/-! ### Claim C5: orphan sections become roots -/

theorem buildNode_sid {S : List Sec} :
    ∀ {fuel i : Nat} {t : SNode}, buildNode S fuel i = some t → t.sid = i := by
  intro fuel i t h
  cases fuel with
  | zero => cases h
  | succ f =>
    unfold buildNode at h
    cases hf : findSec S i with
    | none => rw [hf] at h; cases h
    | some s =>
      rw [hf] at h
      obtain ⟨cs, _, rfl⟩ := Option.map_eq_some'.mp h
      rfl

theorem omap_buildNode_ids {S : List Sec} {fuel : Nat} :
    ∀ {ids : List Nat} {ts : List SNode},
      omap (buildNode S fuel) ids = some ts → ts.map SNode.sid = ids := by
  intro ids
  induction ids with
  | nil => intro ts h; cases h; rfl
  | cons i r ih =>
    intro ts h
    unfold omap at h
    cases hi : buildNode S fuel i with
    | none => rw [hi] at h; cases h
    | some t =>
      rw [hi] at h
      cases hr : omap (buildNode S fuel) r with
      | none => rw [hr] at h; cases h
      | some ts' =>
        rw [hr] at h
        cases h
        simp [List.map_cons, buildNode_sid hi, ih hr]

/-- Claim C5: a section whose `parent_id` references an id not present in
the list fails the attach condition of `buildTree`, so it is pushed onto
the `roots` array (it appears as a root of the built forest, with its id
among the forest's root ids), rather than being dropped or causing a
failure. -/
theorem orphan_treated_as_root {sections : List Sec} {s : Sec} {q : Nat}
    (hs : s ∈ sections) (hq : s.parent_id = some q)
    (horph : ∀ t ∈ sections, t.id ≠ q) :
    s.id ∈ rootIds sections ∧
      ∀ fuel forest, buildForest sections fuel = some forest →
        s.id ∈ forest.map SNode.sid := by
  have hatt : attachB sections s = false := by
    unfold attachB
    rw [hq]
    have : sections.any (fun t => t.id == q) = false := by
      rw [List.any_eq_false]
      intro t ht
      simpa using horph t ht
    simp [this]
  have hroot : s.id ∈ rootIds sections := by
    unfold rootIds
    exact List.mem_map_of_mem _ (List.mem_filter.mpr ⟨hs, by simp [hatt]⟩)
  refine ⟨hroot, fun fuel forest hb => ?_⟩
  rw [omap_buildNode_ids hb]
  exact hroot

/-- Witness for C5 at `orphSecs`: section 4 (parent 9, absent) is a root. -/
theorem orphan_treated_as_root_witness :
    4 ∈ rootIds orphSecs ∧
      ∀ fuel forest, buildForest orphSecs fuel = some forest →
        4 ∈ forest.map SNode.sid :=
  orphan_treated_as_root (s := ⟨4, "d", some 9⟩) (by decide) rfl (by decide)

/-! ### Claim C4: a failed per-section fetch is tolerated -/

/-- Claim C4: when fetching cases for one closure id fails, the
`.catch(err => [])` makes that id contribute an empty list, and the
endpoint still answers 200 (`.ok`) with the aggregation of the remaining
ids' cases: the response equals the one obtained with the failing id's
fetcher replaced by one that succeeds with `[]`. -/
theorem partial_failure_tolerated {secs : List Sec}
    {fetcher : Nat → Except String (List TestCase)}
    {folderIds L : List Nat} {fuel i : Nat} {e : String}
    (hclos : closureIds secs folderIds fuel = some L)
    (hfail : fetcher i = .error e) :
    dataEndpoint (.ok secs) fetcher folderIds fuel =
      some (.ok (computeCoverage (((dedupFirst L).map
        (fetchCaught (fun j => if j = i then .ok [] else fetcher j))).flatten))) := by
  have hfun : fetchCaught fetcher =
      fetchCaught (fun j => if j = i then .ok [] else fetcher j) := by
    funext j
    by_cases hj : j = i
    · subst hj
      simp [fetchCaught, hfail]
    · simp [fetchCaught, hj]
  rw [← hfun]
  have hstep : dataEndpoint (.ok secs) fetcher folderIds fuel =
      match closureIds secs folderIds fuel with
      | none => none
      | some l =>
        some (.ok (computeCoverage ((List.map (fetchCaught fetcher) (dedupFirst l)).flatten))) :=
    rfl
  rw [hstep, hclos]

/-- Witness for C4: with `exSecs`, selection `[1]` and the fetcher that
fails on section 2, the endpoint still returns 200 with section 2
contributing no cases. -/
theorem partial_failure_tolerated_witness :
    dataEndpoint (.ok exSecs) exFetcher [1] 10 =
      some (.ok (computeCoverage (((dedupFirst [1, 2, 3]).map
        (fetchCaught (fun j => if j = 2 then .ok [] else exFetcher j))).flatten))) :=
  partial_failure_tolerated rfl rfl

/-! ### Claim C9: empty selection -/

theorem omap_mem_inv {f : α → Option β} :
    ∀ {l : List α} {ys : List β}, omap f l = some ys → ∀ y ∈ ys, ∃ a ∈ l, f a = some y := by
  intro l
  induction l with
  | nil =>
    intro ys h y hy
    cases h
    cases hy
  | cons b r ih =>
    intro ys h y hy
    unfold omap at h
    cases hb : f b with
    | none => rw [hb] at h; cases h
    | some y' =>
      rw [hb] at h
      cases hr : omap f r with
      | none => rw [hr] at h; cases h
      | some ys' =>
        rw [hr] at h
        cases h
        rcases List.mem_cons.mp hy with rfl | hy'
        · exact ⟨b, List.mem_cons_self _ _, hb⟩
        · obtain ⟨a, ha, hfa⟩ := ih hr y hy'
          exact ⟨a, List.mem_cons_of_mem _ ha, hfa⟩

theorem descendantIds_nil_selected {S : List Sec} {fuel : Nat} {d : List Nat}
    (h : descendantIds S [] fuel = some d) : d = [] := by
  unfold descendantIds at h
  obtain ⟨ys, hys, rfl⟩ := Option.map_eq_some'.mp h
  have hall : ∀ y ∈ ys, y = [] := by
    intro y hy
    obtain ⟨s, _, hfs⟩ := omap_mem_inv hys y hy
    obtain ⟨b, hb, rfl⟩ := Option.map_eq_some'.mp hfs
    rw [hasSelectedAncestor_nil_false hb]
    rfl
  simp only [List.flatten_eq_nil_iff]
  exact hall

theorem closureIds_inv {S : List Sec} {sel : List Nat} {fuel : Nat} {L : List Nat}
    (h : closureIds S sel fuel = some L) :
    ∃ anc desc, ancestorsOfSelected S sel fuel = some anc ∧
      descendantIds S sel fuel = some desc ∧ L = sel ++ anc ++ desc := by
  unfold closureIds at h
  cases ha : ancestorsOfSelected S sel fuel with
  | none => rw [ha] at h; cases h
  | some anc =>
    cases hd : descendantIds S sel fuel with
    | none => rw [ha, hd] at h; cases h
    | some desc =>
      rw [ha, hd] at h
      cases h
      exact ⟨anc, desc, rfl, rfl, rfl⟩

/-- Claim C9: with an empty selection the closure is empty (so the list
of ids for which cases are fetched is empty — zero upstream case-fetch
calls), and the endpoint returns zero counts, numeric-zero percentages
and empty candidate/no lists. -/
theorem empty_selection_zero {secs : List Sec}
    {fetcher : Nat → Except String (List TestCase)} {fuel : Nat} {L : List Nat}
    (hclos : closureIds secs [] fuel = some L) :
    L = [] ∧ dedupFirst L = [] ∧
      dataEndpoint (.ok secs) fetcher [] fuel =
        some (.ok { totalCounts := ⟨0, 0, 0⟩
                    percentages := (.num 0, .num 0, .num 0)
                    overallCoverage := .num 0
                    candidateTests := []
                    noTests := [] }) := by
  obtain ⟨anc, desc, ha, hd, rfl⟩ := closureIds_inv hclos
  have hanc : anc = [] := by
    have h0 : ancestorsOfSelected secs [] fuel = some [] := rfl
    rw [h0] at ha
    exact (Option.some_inj.mp ha).symm
  have hdesc : desc = [] := descendantIds_nil_selected hd
  subst hanc
  subst hdesc
  refine ⟨rfl, rfl, ?_⟩
  have hstep : dataEndpoint (.ok secs) fetcher [] fuel =
      match closureIds secs [] fuel with
      | none => none
      | some l =>
        some (.ok (computeCoverage ((List.map (fetchCaught fetcher) (dedupFirst l)).flatten))) :=
    rfl
  rw [hstep, hclos]
  rfl

/-- Witness for C9 at `exSecs`. -/
theorem empty_selection_zero_witness :
    ([] : List Nat) = [] ∧ dedupFirst [] = [] ∧
      dataEndpoint (.ok exSecs) exFetcher [] 10 =
        some (.ok { totalCounts := ⟨0, 0, 0⟩
                    percentages := (.num 0, .num 0, .num 0)
                    overallCoverage := .num 0
                    candidateTests := []
                    noTests := [] }) :=
  empty_selection_zero rfl

/-! ### Claims C6 and C10: the classification loop -/

theorem classify_foldl :
    ∀ (cases : List TestCase) (st : AggState),
      cases.foldl classifyStep st =
        { counts :=
            { yes := st.counts.yes +
                cases.countP (fun tc => decide (toNumber tc.custom_automation = some 1))
              candidate := st.counts.candidate +
                cases.countP (fun tc => decide (toNumber tc.custom_automation = some 3))
              no := st.counts.no +
                cases.countP (fun tc => !(decide (toNumber tc.custom_automation = some 1)) &&
                  !(decide (toNumber tc.custom_automation = some 3))) }
          candidateTests := st.candidateTests ++
            (cases.filter (fun tc => decide (toNumber tc.custom_automation = some 3))).map
              (fun tc => (tc.id, tc.title))
          noTests := st.noTests ++
            (cases.filter (fun tc => !(decide (toNumber tc.custom_automation = some 1)) &&
                !(decide (toNumber tc.custom_automation = some 3)))).map
              (fun tc => (tc.id, tc.title)) } := by
  intro cases
  induction cases with
  | nil =>
    intro st
    obtain ⟨⟨y, c, n⟩, ct, nt⟩ := st
    simp
  | cons tc rest ih =>
    intro st
    rw [List.foldl_cons, ih]
    obtain ⟨⟨y, c, n⟩, ct, nt⟩ := st
    by_cases h1 : toNumber tc.custom_automation = some 1
    · simp [classifyStep, h1, List.countP_cons, List.filter_cons]
      omega
    · by_cases h3 : toNumber tc.custom_automation = some 3
      · simp [classifyStep, h1, h3, List.countP_cons, List.filter_cons]
        omega
      · by_cases h2 : toNumber tc.custom_automation = some 2
        · simp [classifyStep, h1, h2, h3, List.countP_cons, List.filter_cons]
          omega
        · simp [classifyStep, h1, h2, h3, List.countP_cons, List.filter_cons]
          omega

theorem countP_tripartition (cases : List TestCase) :
    cases.countP (fun tc => decide (toNumber tc.custom_automation = some 1)) +
      cases.countP (fun tc => decide (toNumber tc.custom_automation = some 3)) +
      cases.countP (fun tc => !(decide (toNumber tc.custom_automation = some 1)) &&
        !(decide (toNumber tc.custom_automation = some 3))) = cases.length := by
  induction cases with
  | nil => rfl
  | cons tc rest ih =>
    simp only [List.countP_cons, List.length_cons]
    by_cases h1 : toNumber tc.custom_automation = some 1
    · simp [h1]
      omega
    · by_cases h3 : toNumber tc.custom_automation = some 3
      · simp [h1, h3]
        omega
      · simp [h1, h3]
        omega

/-- Claim C6: every fetched case falls in exactly one of the three
categories — the three counts sum to the number of cases, the `Yes` count
is exactly the number of cases whose coerced status is `1` (whether the
field was the number `1` or the string `"1"`), the candidate count
counts exactly status `3`, and every case with any other or missing
status (including `2`) is counted in `No`. -/
theorem classification_totals (cases : List TestCase) :
    (classifyAll cases).counts.yes + (classifyAll cases).counts.candidate +
        (classifyAll cases).counts.no = cases.length ∧
      (classifyAll cases).counts.yes =
        cases.countP (fun tc => decide (toNumber tc.custom_automation = some 1)) ∧
      (classifyAll cases).counts.candidate =
        cases.countP (fun tc => decide (toNumber tc.custom_automation = some 3)) ∧
      (classifyAll cases).counts.no =
        cases.countP (fun tc => !(decide (toNumber tc.custom_automation = some 1)) &&
          !(decide (toNumber tc.custom_automation = some 3))) ∧
      toNumber (.num 1) = some 1 ∧ toNumber (.str "1") = some 1 := by
  have h := classify_foldl cases ⟨⟨0, 0, 0⟩, [], []⟩
  unfold classifyAll
  rw [h]
  refine ⟨?_, by simp, by simp, by simp, by decide, by decide⟩
  simp only [Nat.zero_add]
  exact countP_tripartition cases

/-- Claim C10: the candidate and no lists produced by the classification
loop are exactly the id/title pairs of the cases classified in those
categories, in input order — so their lengths equal the corresponding
counts, each entry carries the id and title of the case that produced it,
and no case with status `1` (`Yes`) produces an entry in either list. -/
theorem category_lists_spec (cases : List TestCase) :
    (classifyAll cases).candidateTests.length = (classifyAll cases).counts.candidate ∧
      (classifyAll cases).noTests.length = (classifyAll cases).counts.no ∧
      (classifyAll cases).candidateTests =
        (cases.filter (fun tc => decide (toNumber tc.custom_automation = some 3))).map
          (fun tc => (tc.id, tc.title)) ∧
      (classifyAll cases).noTests =
        (cases.filter (fun tc => !(decide (toNumber tc.custom_automation = some 1)) &&
            !(decide (toNumber tc.custom_automation = some 3)))).map
          (fun tc => (tc.id, tc.title)) := by
  have h := classify_foldl cases ⟨⟨0, 0, 0⟩, [], []⟩
  unfold classifyAll
  rw [h]
  refine ⟨?_, ?_, by simp, by simp⟩
  · simp [List.countP_eq_length_filter]
  · simp [List.countP_eq_length_filter]

/-! ### Claim C8: percentages and overall coverage -/

theorem toFixed1_eval (q : ℚ) (a : Int) (b : Nat)
    (hnum : (q * 10 + 1 / 2).num = a) (hden : (q * 10 + 1 / 2).den = b) :
    toFixed1 q = toString (Int.fdiv a b / 10) ++ "." ++ toString (Int.fdiv a b % 10) := by
  simp only [toFixed1]
  rw [hnum, hden]

/-- Claim C8: on `totalCounts = {Yes: 2, Candidate: 1, No: 1}` the
rendered percentages are the strings "50.0", "25.0", "25.0" and
`overallCoverage` is "50.0"; and for every counts record with positive
total, `overallCoverage` is exactly `percentages.Yes`, each percentage
being count divided by total times 100 rendered by `toFixed1`. -/
theorem percentage_computation :
    (percentagesOf ⟨2, 1, 1⟩ = (JNum.str "50.0", JNum.str "25.0", JNum.str "25.0") ∧
        overallOf ⟨2, 1, 1⟩ = JNum.str "50.0") ∧
      ∀ c : Counts, 0 < totalOf c →
        overallOf c = (percentagesOf c).1 ∧
        (percentagesOf c).1 = JNum.str (toFixed1 ((c.yes : ℚ) / (totalOf c : ℚ) * 100)) ∧
        (percentagesOf c).2.1 =
          JNum.str (toFixed1 ((c.candidate : ℚ) / (totalOf c : ℚ) * 100)) ∧
        (percentagesOf c).2.2 = JNum.str (toFixed1 ((c.no : ℚ) / (totalOf c : ℚ) * 100)) := by
  have e50 : toFixed1 (50 : ℚ) = "50.0" := by
    rw [toFixed1_eval 50 1001 2 (by norm_num) (by norm_num)]
    decide
  have e25 : toFixed1 (25 : ℚ) = "25.0" := by
    rw [toFixed1_eval 25 501 2 (by norm_num) (by norm_num)]
    decide
  constructor
  · have hpc : percentagesOf ⟨2, 1, 1⟩ =
        (JNum.str (toFixed1 50), JNum.str (toFixed1 25), JNum.str (toFixed1 25)) := by
      unfold percentagesOf
      rw [if_pos (by norm_num [totalOf])]
      norm_num [totalOf]
    have h1 : percentagesOf ⟨2, 1, 1⟩ =
        (JNum.str "50.0", JNum.str "25.0", JNum.str "25.0") := by
      rw [hpc, e50, e25]
    refine ⟨h1, ?_⟩
    show (percentagesOf ⟨2, 1, 1⟩).1 = JNum.str "50.0"
    rw [h1]
  · intro c hc
    refine ⟨rfl, ?_, ?_, ?_⟩ <;> simp [percentagesOf, hc]

/-- Witness for C8: the counts record `{2, 1, 1}` has positive total and
its overall coverage is its Yes percentage. -/
theorem percentage_computation_witness :
    0 < totalOf ⟨2, 1, 1⟩ ∧ overallOf ⟨2, 1, 1⟩ = (percentagesOf ⟨2, 1, 1⟩).1 :=
  ⟨by decide, (percentage_computation.2 ⟨2, 1, 1⟩ (by decide)).1⟩

/-! ### Claim C7: pagination -/

theorem fetchLoop_go {α : Type _} (source : Nat → List α) (k : Nat)
    (hfull : ∀ j < k, (source (250 * j)).length = 250)
    (hpart : (source (250 * k)).length < 250) :
    ∀ fuel i acc calls, i ≤ k → k - i < fuel →
      fetchLoop source 250 fuel (250 * i) acc calls =
        some (acc ++ ((List.range' i (k + 1 - i)).map (fun j => source (250 * j))).flatten,
          calls + (k + 1 - i)) := by
  intro fuel
  induction fuel with
  | zero =>
    intro i acc calls hik hf
    omega
  | succ f ih =>
    intro i acc calls hik hf
    by_cases hi : i = k
    · have hne : ¬ (source (250 * i)).length = 250 := by
        rw [hi]
        omega
      unfold fetchLoop
      rw [if_neg hne, (by omega : k + 1 - i = 1), List.range'_one]
      simp
    · have hik' : i < k := lt_of_le_of_ne hik hi
      have hlen : (source (250 * i)).length = 250 := hfull i hik'
      unfold fetchLoop
      rw [if_pos hlen, hlen, (by ring : 250 * i + 250 = 250 * (i + 1)),
        ih (i + 1) (acc ++ source (250 * i)) (calls + 1) (by omega) (by omega),
        (by omega : k + 1 - i = (k - i) + 1), List.range'_succ]
      simp only [List.map_cons, List.flatten_cons, List.append_assoc]
      have : k + 1 - (i + 1) = k - i := by omega
      rw [this]
      refine congrArg some (Prod.ext rfl ?_)
      simp
      omega

/-- Claim C7: the paginated fetch loop shared by `fetchAllSections` and
`fetchTestCasesForSection` keeps requesting pages while each batch is a
full page of 250 and stops at the first partial (or empty) page,
concatenating the batches in order: with `k` full pages followed by a
partial page it issues exactly `k + 1` fetch calls and returns the
concatenation of all `k + 1` batches. -/
theorem pagination_exhaustion {α : Type _} (source : Nat → List α) (k fuel : Nat)
    (hfull : ∀ j < k, (source (250 * j)).length = 250)
    (hpart : (source (250 * k)).length < 250)
    (hfuel : k < fuel) :
    fetchLoop source 250 fuel 0 [] 0 =
      some (((List.range (k + 1)).map (fun j => source (250 * j))).flatten, k + 1) := by
  have h := fetchLoop_go source k hfull hpart fuel 0 [] 0 (Nat.zero_le _) (by omega)
  rw [Nat.mul_zero] at h
  simpa [List.range_eq_range'] using h

set_option maxRecDepth 4000 in
/-- Witness for C7: `exPages` returns one full page then a partial one,
so the loop issues exactly two calls and concatenates both batches. -/
theorem pagination_exhaustion_witness :
    fetchLoop exPages 250 3 0 [] 0 =
      some (((List.range 2).map (fun j => exPages (250 * j))).flatten, 2) :=
  pagination_exhaustion exPages 1 3 (by decide) (by decide) (by omega)

/-! ### Claim C1: the selection closure -/

theorem findSec_mem {S : List Sec} {i : Nat} {s : Sec} (h : findSec S i = some s) :
    s ∈ S ∧ s.id = i := by
  unfold findSec at h
  have h1 := List.mem_of_find?_eq_some h
  have h2 := List.find?_some h
  exact ⟨List.mem_reverse.mp h1, by simpa using h2⟩

theorem parentOf_mem {S : List Sec} {p q : Nat} (h : parentOf S p = some q) :
    ∃ s ∈ S, s.id = p := by
  unfold parentOf at h
  cases hf : findSec S p with
  | none => rw [hf] at h; cases h
  | some s =>
    obtain ⟨h1, h2⟩ := findSec_mem hf
    exact ⟨s, h1, h2⟩

/-- Counterexample to claim C1's "closed under child-of" part: on
`exSecs` with selection `{2}`, the closure is `{2, 1}`; section 3 is a
child of section 1 (which is in the closure), yet 3 is not in the
closure — node 1 was included only as a path ancestor and its other
children are not pulled in. -/
theorem closure_not_child_closed :
    closureIds exSecs [2] 10 = some [2, 1] ∧
      (1 : Nat) ∈ [2, 1] ∧ parentOf exSecs 3 = some 1 ∧
      (∃ s ∈ exSecs, s.id = 3) ∧ (3 : Nat) ∉ [2, 1] := by
  refine ⟨rfl, by decide, by decide, ⟨⟨3, "c", some 1⟩, by decide, rfl⟩, by decide⟩

/-- C1 as amended: whenever the closure computation completes (fuel
suffices; guaranteed on acyclic parent graphs), the closure contains the
selected ids, every id on the ancestor walk of each selected id, and
every section whose ancestor walk meets a selected id; and it is closed
under the "parent of" relation.  (It is not in general closed under
"child of": see the counterexample.) -/
theorem closure_expansion_spec {S : List Sec} {sel : List Nat} {fuel : Nat} {L : List Nat}
    (hclos : closureIds S sel fuel = some L) :
    (∀ a ∈ sel, a ∈ L) ∧
      (∀ a ∈ sel, ∀ l, ancestorWalk S fuel (parentOf S a) = some l → ∀ x ∈ l, x ∈ L) ∧
      (∀ s ∈ S, ∀ l, ancestorWalk S fuel (parentOf S s.id) = some l →
        (∃ x ∈ l, x ∈ sel) → s.id ∈ L) ∧
      (∀ x p, x ∈ L → parentOf S x = some p → p ≠ 0 → p ∈ L) := by
  obtain ⟨anc, desc, ha, hd, rfl⟩ := closureIds_inv hclos
  unfold ancestorsOfSelected at ha
  obtain ⟨ys, hys, hanc⟩ := Option.map_eq_some'.mp ha
  unfold descendantIds at hd
  obtain ⟨zs, hzs, hdesc⟩ := Option.map_eq_some'.mp hd
  subst hanc
  subst hdesc
  have hselL : ∀ a ∈ sel, a ∈ sel ++ ys.flatten ++ zs.flatten := by
    intro a haa
    simp [haa]
  have hancL : ∀ x ∈ ys.flatten, x ∈ sel ++ ys.flatten ++ zs.flatten := by
    intro x hx
    simp [hx]
  have hdescL : ∀ x ∈ zs.flatten, x ∈ sel ++ ys.flatten ++ zs.flatten := by
    intro x hx
    simp [hx]
  refine ⟨hselL, ?_, ?_, ?_⟩
  · intro a haa l hwalk x hx
    obtain ⟨y, hy, hyys⟩ := omap_mem_some hys a haa
    have hyl : y = l := Option.some_inj.mp (hy.symm.trans hwalk)
    subst hyl
    exact hancL x (List.mem_flatten.mpr ⟨y, hyys, hx⟩)
  · rintro s hs l hwalk ⟨x, hxl, hxsel⟩
    have hfound := hasSelectedAncestor_of_mem_walk hwalk hxl hxsel
    obtain ⟨z, hz, hzzs⟩ := omap_mem_some hzs s hs
    rw [hfound] at hz
    have hzval : z = [s.id] := by
      cases hz
      rfl
    subst hzval
    exact hdescL s.id (List.mem_flatten.mpr ⟨[s.id], hzzs, List.mem_cons_self _ _⟩)
  · intro x p hxL hpar hp
    rcases List.mem_append.mp hxL with hx1 | hxdesc
    · rcases List.mem_append.mp hx1 with hxsel | hxanc
      · obtain ⟨y, hy, hyys⟩ := omap_mem_some hys x hxsel
        rw [hpar] at hy
        exact hancL p (List.mem_flatten.mpr ⟨y, hyys, ancestorWalk_head hp hy⟩)
      · obtain ⟨y, hyys, hxy⟩ := List.mem_flatten.mp hxanc
        obtain ⟨a, _, hy⟩ := omap_mem_inv hys y hyys
        exact hancL p (List.mem_flatten.mpr ⟨y, hyys, mem_ancestorWalk_parent hy hxy hpar hp⟩)
    · obtain ⟨z, hzzs, hxz⟩ := List.mem_flatten.mp hxdesc
      obtain ⟨s, hsS, hz⟩ := omap_mem_inv hzs z hzzs
      obtain ⟨b, hb, hzb⟩ := Option.map_eq_some'.mp hz
      cases b with
      | false =>
        subst hzb
        cases hxz
      | true =>
        subst hzb
        have hxs : x = s.id := by
          simpa using hxz
        subst hxs
        obtain ⟨f, rfl⟩ : ∃ f, fuel = f + 1 := by
          cases hfu : fuel with
          | zero =>
            rw [hfu, hpar, hasSelectedAncestor_zero S sel hp] at hb
            cases hb
          | succ f => exact ⟨f, rfl⟩
        rw [hpar, hasSelectedAncestor_succ S sel f hp] at hb
        by_cases hpsel : p ∈ sel
        · exact hselL p hpsel
        · rw [if_neg hpsel] at hb
          have hb' := hasSelectedAncestor_mono (Nat.le_succ f) hb
          obtain ⟨q, hq⟩ : ∃ q, parentOf S p = some q := by
            cases hpq : parentOf S p with
            | none =>
              rw [hpq, hasSelectedAncestor_none] at hb'
              cases hb'
            | some q => exact ⟨q, rfl⟩
          obtain ⟨s', hs'S, hs'id⟩ := parentOf_mem hq
          obtain ⟨z', hz', hz'zs⟩ := omap_mem_some hzs s' hs'S
          rw [hs'id, hb'] at hz'
          have hz'val : z' = [p] := by
            have hsome : Option.map (fun b => if b = true then [p] else []) (some true) =
                some [p] := by
              simp
            exact (Option.some_inj.mp (hsome.symm.trans hz')).symm
          subst hz'val
          exact hdescL p (List.mem_flatten.mpr ⟨[p], hz'zs, List.mem_cons_self _ _⟩)

/-- Witness for the amended C1 on `exSecs` with selection `{2}`: the
closure computes to `[2, 1]`, contains the selected id 2, and contains
2's parent 1 by parent-closedness. -/
theorem closure_expansion_spec_witness :
    closureIds exSecs [2] 10 = some [2, 1] ∧ (2 : Nat) ∈ [2, 1] ∧ (1 : Nat) ∈ [2, 1] := by
  have h := closure_expansion_spec (show closureIds exSecs [2] 10 = some [2, 1] from rfl)
  exact ⟨rfl, h.1 2 (by decide), h.2.2.2 2 1 (h.1 2 (by decide)) (by decide) (by decide)⟩

/-! ### Claim C2: chain and depth machinery -/

theorem walkDone_walk {S : List Sec} {F x : Nat} (h : walkDone S F x) :
    ancestorWalk S F (parentOf S x) = some (chainOf S F x) := by
  unfold walkDone at h
  obtain ⟨l, hl⟩ := Option.isSome_iff_exists.mp h
  unfold chainOf
  rw [hl]
  rfl

theorem chainOf_of_parent_none {S : List Sec} {F x : Nat} (h : parentOf S x = none) :
    chainOf S F x = [] := by
  unfold chainOf
  rw [h, ancestorWalk_none]
  rfl

theorem chainOf_of_parent_zero {S : List Sec} {F x : Nat} (h : parentOf S x = some 0) :
    chainOf S F x = [] := by
  unfold chainOf
  rw [h, ancestorWalk_some_zero]
  rfl

theorem walkDone_of_parent_none {S : List Sec} {F x : Nat} (h : parentOf S x = none) :
    walkDone S F x := by
  unfold walkDone
  rw [h, ancestorWalk_none]
  rfl

theorem chain_unfold {S : List Sec} {F x p : Nat} (hw : walkDone S F x)
    (hpar : parentOf S x = some p) (hp : p ≠ 0) :
    chainOf S F x = p :: chainOf S F p ∧ walkDone S F p ∧
      dpt S F x = dpt S F p + 1 := by
  have hwal := walkDone_walk hw
  rw [hpar] at hwal
  cases F with
  | zero =>
    rw [ancestorWalk_zero S hp] at hwal
    cases hwal
  | succ f =>
    rw [ancestorWalk_succ S f hp] at hwal
    obtain ⟨l0, hl0, hcons⟩ := Option.map_eq_some'.mp hwal
    have hl0' : ancestorWalk S (f + 1) (parentOf S p) = some l0 :=
      ancestorWalk_mono (Nat.le_succ f) hl0
    have hchp : chainOf S (f + 1) p = l0 := by
      unfold chainOf
      rw [hl0']
      rfl
    have hwp : walkDone S (f + 1) p := by
      unfold walkDone
      rw [hl0']
      rfl
    refine ⟨?_, hwp, ?_⟩
    · rw [← hcons, hchp]
    · unfold dpt
      rw [← hcons, hchp]
      rfl

theorem dpt_le_fuel {S : List Sec} {F x : Nat} (hw : walkDone S F x) :
    dpt S F x ≤ F :=
  ancestorWalk_length (walkDone_walk hw)

theorem chain_suffix {S : List Sec} {F : Nat} :
    ∀ n x a, dpt S F x = n → walkDone S F x → a ∈ chainOf S F x →
      ((a :: chainOf S F a) <:+ chainOf S F x ∧ walkDone S F a ∧ a ≠ 0) := by
  intro n
  induction n using Nat.strong_induction_on with
  | _ n ih =>
    intro x a hdx hw ha
    cases hpx : parentOf S x with
    | none =>
      rw [chainOf_of_parent_none hpx] at ha
      cases ha
    | some p =>
      by_cases hp0 : p = 0
      · subst hp0
        rw [chainOf_of_parent_zero hpx] at ha
        cases ha
      · obtain ⟨hch, hwp, hd⟩ := chain_unfold hw hpx hp0
        rw [hch] at ha
        rcases List.mem_cons.mp ha with rfl | ha'
        · rw [hch]
          exact ⟨List.suffix_refl _, hwp, hp0⟩
        · have hrec := ih (dpt S F p) (by omega) p a rfl hwp ha'
          refine ⟨hrec.1.trans ?_, hrec.2⟩
          rw [hch]
          exact List.suffix_cons p _

theorem selfChain_suffix {S : List Sec} {F : Nat} {x c : Nat} (hwx : walkDone S F x)
    (hc : c ∈ selfChain S F x) :
    (c :: chainOf S F c) <:+ selfChain S F x ∧ walkDone S F c := by
  rcases List.mem_cons.mp hc with rfl | hc'
  · exact ⟨List.suffix_refl _, hwx⟩
  · obtain ⟨h1, h2, _⟩ := chain_suffix (dpt S F x) x c rfl hwx hc'
    exact ⟨h1.trans (List.suffix_cons x _), h2⟩

theorem mem_chain_ne_zero {S : List Sec} {F : Nat} {x a : Nat} (hwx : walkDone S F x)
    (ha : a ∈ chainOf S F x) : a ≠ 0 :=
  (chain_suffix (dpt S F x) x a rfl hwx ha).2.2

theorem suffix_eq_of_length {l1 l2 L : List α} (h1 : l1 <:+ L) (h2 : l2 <:+ L)
    (h : l1.length = l2.length) : l1 = l2 := by
  obtain ⟨t1, ht1⟩ := h1
  obtain ⟨t2, ht2⟩ := h2
  have heq : t2 ++ l2 = t1 ++ l1 := ht2.trans ht1.symm
  have hlen : t2.length = t1.length := by
    have := congrArg List.length heq
    simp only [List.length_append] at this
    omega
  exact ((List.append_inj heq hlen).2).symm

theorem suffix_total {l1 l2 L : List α} (h1 : l1 <:+ L) (h2 : l2 <:+ L)
    (hlen : l1.length ≤ l2.length) : l1 <:+ l2 := by
  obtain ⟨t1, ht1⟩ := h1
  obtain ⟨t2, ht2⟩ := h2
  have he1 : l1 = L.drop t1.length := by
    rw [← ht1, List.drop_left]
  have he2 : l2 = L.drop t2.length := by
    rw [← ht2, List.drop_left]
  have hL1 : t1.length + l1.length = L.length := by
    rw [← ht1]
    simp [List.length_append]
  have hL2 : t2.length + l2.length = L.length := by
    rw [← ht2]
    simp [List.length_append]
  have : l1 = l2.drop (t1.length - t2.length) := by
    rw [he1, he2, List.drop_drop]
    congr 1
    omega
  rw [this]
  exact List.drop_suffix _ _

/-! ### Claim C2: id-level consequences of duplicate-free ids -/

theorem sec_id_inj {S : List Sec} (hnd : (S.map Sec.id).Nodup) {s t : Sec}
    (hs : s ∈ S) (ht : t ∈ S) (h : s.id = t.id) : s = t :=
  List.inj_on_of_nodup_map hnd hs ht h

theorem findSec_self {S : List Sec} (hnd : (S.map Sec.id).Nodup) {s : Sec}
    (hs : s ∈ S) : findSec S s.id = some s := by
  have hsome : (findSec S s.id).isSome = true := by
    unfold findSec
    rw [List.find?_isSome]
    exact ⟨s, List.mem_reverse.mpr hs, by simp⟩
  obtain ⟨t, ht⟩ := Option.isSome_iff_exists.mp hsome
  obtain ⟨htS, htid⟩ := findSec_mem ht
  rw [ht]
  exact congrArg some (sec_id_inj hnd htS hs htid)

theorem parentOf_eq {S : List Sec} (hnd : (S.map Sec.id).Nodup) {s : Sec}
    (hs : s ∈ S) : parentOf S s.id = s.parent_id := by
  unfold parentOf
  rw [findSec_self hnd hs]
  rfl

theorem attachB_true {S : List Sec} {s : Sec} (h : attachB S s = true) :
    ∃ q, s.parent_id = some q ∧ q ≠ 0 ∧ ∃ t ∈ S, t.id = q := by
  unfold attachB at h
  cases hp : s.parent_id with
  | none => rw [hp] at h; cases h
  | some q =>
    rw [hp, Bool.and_eq_true] at h
    obtain ⟨h1, h2⟩ := h
    refine ⟨q, rfl, by simpa using h1, ?_⟩
    obtain ⟨t, ht, hq⟩ := List.any_eq_true.mp h2
    exact ⟨t, ht, by simpa using hq⟩

theorem attachB_intro {S : List Sec} {s : Sec} {q : Nat} (hp : s.parent_id = some q)
    (hq : q ≠ 0) (hmem : ∃ t ∈ S, t.id = q) : attachB S s = true := by
  unfold attachB
  rw [hp, Bool.and_eq_true]
  refine ⟨by simpa using hq, List.any_eq_true.mpr ?_⟩
  obtain ⟨t, ht, htq⟩ := hmem
  exact ⟨t, ht, by simpa using htq⟩

theorem childIds_mem_inv {S : List Sec} (hnd : (S.map Sec.id).Nodup) {c i : Nat}
    (hc : c ∈ childIds S i) :
    parentOf S c = some i ∧ i ≠ 0 ∧ c ∈ S.map Sec.id := by
  unfold childIds at hc
  obtain ⟨s, hsf, hsid⟩ := List.mem_map.mp hc
  obtain ⟨hsS, hcond⟩ := List.mem_filter.mp hsf
  rw [Bool.and_eq_true] at hcond
  obtain ⟨hatt, hpar⟩ := hcond
  have hpar' : s.parent_id = some i := by simpa using hpar
  obtain ⟨q, hq1, hq2, _⟩ := attachB_true hatt
  rw [hq1] at hpar'
  cases hpar'
  subst hsid
  exact ⟨(parentOf_eq hnd hsS).trans hq1, hq2, List.mem_map_of_mem _ hsS⟩

theorem childIds_mem_intro {S : List Sec} (hnd : (S.map Sec.id).Nodup) {c i : Nat}
    (hc : c ∈ S.map Sec.id) (hpar : parentOf S c = some i) (hi : i ≠ 0)
    (hiS : i ∈ S.map Sec.id) : c ∈ childIds S i := by
  obtain ⟨s, hsS, hsid⟩ := List.mem_map.mp hc
  subst hsid
  have hpid : s.parent_id = some i := (parentOf_eq hnd hsS).symm.trans hpar
  obtain ⟨t, htS, htid⟩ := List.mem_map.mp hiS
  unfold childIds
  refine List.mem_map_of_mem _ (List.mem_filter.mpr ⟨hsS, ?_⟩)
  rw [Bool.and_eq_true]
  exact ⟨attachB_intro hpid hi ⟨t, htS, htid⟩, by simp [hpid]⟩

theorem childIds_nodup {S : List Sec} (hnd : (S.map Sec.id).Nodup) (i : Nat) :
    (childIds S i).Nodup :=
  hnd.sublist ((List.filter_sublist S).map Sec.id)

theorem rootIds_sub {S : List Sec} : rootIds S ⊆ S.map Sec.id := by
  intro r hr
  unfold rootIds at hr
  obtain ⟨s, hsf, hsid⟩ := List.mem_map.mp hr
  exact hsid ▸ List.mem_map_of_mem _ (List.mem_filter.mp hsf).1

theorem rootIds_nodup {S : List Sec} (hnd : (S.map Sec.id).Nodup) :
    (rootIds S).Nodup :=
  hnd.sublist ((List.filter_sublist S).map Sec.id)

theorem mem_rootIds_iff {S : List Sec} {r : Nat} :
    r ∈ rootIds S ↔ ∃ s ∈ S, s.id = r ∧ attachB S s = false := by
  unfold rootIds
  constructor
  · intro hr
    obtain ⟨s, hsf, hsid⟩ := List.mem_map.mp hr
    obtain ⟨hsS, hcond⟩ := List.mem_filter.mp hsf
    exact ⟨s, hsS, hsid, by simpa using hcond⟩
  · rintro ⟨s, hsS, hsid, hatt⟩
    exact hsid ▸ List.mem_map_of_mem _ (List.mem_filter.mpr ⟨hsS, by simp [hatt]⟩)

/-! ### Claim C2: counting lemmas -/

theorem countP_id_eq_count {S : List Sec} (x : Nat) :
    S.countP (fun s => s.id == x) = (S.map Sec.id).count x := by
  rw [List.count_eq_countP, List.countP_map]
  rfl

theorem nodup_count_eq_one {l : List Nat} (hnd : l.Nodup) {x : Nat} (hx : x ∈ l) :
    l.count x = 1 := by
  have hle := List.nodup_iff_count_le_one.mp hnd x
  have hpos := List.count_pos_iff.mpr hx
  omega

theorem count_descList {S : List Sec} {F : Nat} (hnd : (S.map Sec.id).Nodup)
    (x i : Nat) :
    (descList S F i).count x =
      if i ∈ selfChain S F x ∧ x ∈ S.map Sec.id then 1 else 0 := by
  have h1 : (descList S F i).count x =
      S.countP (fun s => (s.id == x) && decide (i ∈ selfChain S F s.id)) := by
    unfold descList
    rw [List.count_eq_countP, List.countP_map, List.countP_filter]
    rfl
  rw [h1]
  by_cases hx : x ∈ S.map Sec.id
  · by_cases hm : i ∈ selfChain S F x
    · rw [if_pos ⟨hm, hx⟩]
      have h2 : S.countP (fun s => (s.id == x) && decide (i ∈ selfChain S F s.id)) =
          S.countP (fun s => s.id == x) := by
        apply List.countP_congr
        intro s _
        by_cases hid : s.id = x
        · simp [hid, hm]
        · simp [hid]
      rw [h2, countP_id_eq_count]
      exact nodup_count_eq_one hnd hx
    · rw [if_neg (fun h => hm h.1)]
      rw [List.countP_eq_zero]
      intro s _
      by_cases hid : s.id = x
      · simp [hid, hm]
      · simp [hid]
  · rw [if_neg (fun h => hx h.2)]
    rw [List.countP_eq_zero]
    intro s hsS
    have : s.id ≠ x := fun h => hx (h ▸ List.mem_map_of_mem _ hsS)
    simp [this]

/-! ### Claim C2: the subtree decomposition -/

theorem walkDone_of_mem {S : List Sec} {F : Nat} (hW : WalksComplete S F) {x : Nat}
    (hx : x ∈ S.map Sec.id) : walkDone S F x := by
  obtain ⟨s, hsS, rfl⟩ := List.mem_map.mp hx
  exact hW s hsS

theorem mem_selfChain_trans {S : List Sec} {F : Nat} {x c i : Nat}
    (hwx : walkDone S F x) (hc : c ∈ selfChain S F x)
    (hch : chainOf S F c = i :: chainOf S F i) : i ∈ selfChain S F x := by
  rcases List.mem_cons.mp hc with rfl | hc'
  · exact List.mem_cons_of_mem _ (hch ▸ List.mem_cons_self _ _)
  · obtain ⟨hsuf, _, _⟩ := chain_suffix (dpt S F x) x c rfl hwx hc'
    have : i ∈ chainOf S F x := hsuf.subset (by rw [hch]; exact List.mem_cons_of_mem _ (List.mem_cons_self _ _))
    exact List.mem_cons_of_mem _ this

theorem pred_exists {S : List Sec} {F : Nat} :
    ∀ n x i, dpt S F x = n → walkDone S F x → i ∈ chainOf S F x →
      ∃ c ∈ selfChain S F x, parentOf S c = some i := by
  intro n
  induction n using Nat.strong_induction_on with
  | _ n ih =>
    intro x i hdx hw hi
    cases hpx : parentOf S x with
    | none =>
      rw [chainOf_of_parent_none hpx] at hi
      cases hi
    | some p =>
      by_cases hp0 : p = 0
      · subst hp0
        rw [chainOf_of_parent_zero hpx] at hi
        cases hi
      · obtain ⟨hch, hwp, hd⟩ := chain_unfold hw hpx hp0
        rw [hch] at hi
        rcases List.mem_cons.mp hi with rfl | hi'
        · exact ⟨x, List.mem_cons_self _ _, hpx⟩
        · obtain ⟨c, hc, hpc⟩ := ih (dpt S F p) (by omega) p i rfl hwp hi'
          refine ⟨c, ?_, hpc⟩
          have : c ∈ chainOf S F x := by
            rw [hch]
            rcases List.mem_cons.mp hc with rfl | hc'
            · exact List.mem_cons_self _ _
            · exact List.mem_cons_of_mem _ hc'
          exact List.mem_cons_of_mem _ this

theorem chain_pred_unique {S : List Sec} {F : Nat} {x c1 c2 i : Nat}
    (hwx : walkDone S F x) (hc1 : c1 ∈ selfChain S F x) (hc2 : c2 ∈ selfChain S F x)
    (hp1 : parentOf S c1 = some i) (hp2 : parentOf S c2 = some i) (hi : i ≠ 0) :
    c1 = c2 := by
  obtain ⟨hs1, hw1⟩ := selfChain_suffix hwx hc1
  obtain ⟨hs2, hw2⟩ := selfChain_suffix hwx hc2
  obtain ⟨hch1, _, _⟩ := chain_unfold hw1 hp1 hi
  obtain ⟨hch2, _, _⟩ := chain_unfold hw2 hp2 hi
  rw [hch1] at hs1
  rw [hch2] at hs2
  have hlen : (c1 :: i :: chainOf S F i).length = (c2 :: i :: chainOf S F i).length := rfl
  have := suffix_eq_of_length hs1 hs2 hlen
  exact (List.cons.injEq _ _ _ _ ▸ this).1

theorem no_child_on_own_chain {S : List Sec} {F : Nat} {i c : Nat}
    (hwi : walkDone S F i) (hwc : walkDone S F c) (hc : c ∈ selfChain S F i)
    (hpc : parentOf S c = some i) (hi : i ≠ 0) : False := by
  obtain ⟨hsuf, _⟩ := selfChain_suffix hwi hc
  obtain ⟨hch, _, _⟩ := chain_unfold hwc hpc hi
  rw [hch] at hsuf
  have hle := hsuf.length_le
  simp only [List.length_cons, selfChain] at hle
  omega

theorem descList_perm {S : List Sec} {F : Nat} (hnd : (S.map Sec.id).Nodup)
    (hW : WalksComplete S F) {i : Nat} (hi : i ∈ S.map Sec.id) :
    (descList S F i).Perm (i :: ((childIds S i).map (descList S F)).flatten) := by
  rw [List.perm_iff_count]
  intro x
  rw [count_descList hnd, List.count_cons, List.count_flatten, List.map_map]
  by_cases hx : x ∈ S.map Sec.id
  · have hwx : walkDone S F x := walkDone_of_mem hW hx
    have hwi : walkDone S F i := walkDone_of_mem hW hi
    by_cases hxi : x = i
    · subst hxi
      rw [if_pos ⟨List.mem_cons_self _ _, hx⟩, if_pos (by simp)]
      have hsum : (((childIds S x).map (List.count x ∘ descList S F)).sum) = 0 := by
        apply List.sum_eq_zero
        intro y hy
        obtain ⟨c, hcmem, rfl⟩ := List.mem_map.mp hy
        obtain ⟨hpc, hi0, hcid⟩ := childIds_mem_inv hnd hcmem
        simp only [Function.comp_apply]
        rw [count_descList hnd]
        rw [if_neg]
        rintro ⟨hcx, -⟩
        exact no_child_on_own_chain hwx (walkDone_of_mem hW hcid) hcx hpc hi0
      rw [hsum]
    · have hbeq : ¬ (i == x) = true := by
        simp only [beq_iff_eq]
        exact fun h => hxi h.symm
      rw [if_neg hbeq, Nat.add_zero]
      have hterm : ((childIds S i).map (List.count x ∘ descList S F)) =
          ((childIds S i).map (fun c => if decide (c ∈ selfChain S F x) = true then 1 else 0)) := by
        apply List.map_congr_left
        intro c hcmem
        simp only [Function.comp_apply]
        rw [count_descList hnd]
        by_cases hcx : c ∈ selfChain S F x
        · rw [if_pos ⟨hcx, hx⟩, if_pos (by simpa using hcx)]
        · rw [if_neg (fun h => hcx h.1), if_neg (by simpa using hcx)]
      rw [hterm, sum_indicator_eq_countP]
      have huniq : ∀ a ∈ childIds S i, decide (a ∈ selfChain S F x) = true →
          ∀ b ∈ childIds S i, decide (b ∈ selfChain S F x) = true → a = b := by
        intro a ha hqa b hb hqb
        obtain ⟨hpa, hi0, -⟩ := childIds_mem_inv hnd ha
        obtain ⟨hpb, -, -⟩ := childIds_mem_inv hnd hb
        exact chain_pred_unique hwx (of_decide_eq_true hqa) (of_decide_eq_true hqb) hpa hpb hi0
      rw [countP_eq_one_of_unique (childIds_nodup hnd i) huniq]
      by_cases him : i ∈ selfChain S F x
      · rw [if_pos ⟨him, hx⟩]
        have hichain : i ∈ chainOf S F x := by
          rcases List.mem_cons.mp him with h | h
          · exact absurd h.symm hxi
          · exact h
        have hi0 : i ≠ 0 := mem_chain_ne_zero hwx hichain
        obtain ⟨c, hc, hpc⟩ := pred_exists (dpt S F x) x i rfl hwx hichain
        have hcid : c ∈ S.map Sec.id := by
          obtain ⟨s, hsS, hsid⟩ := parentOf_mem hpc
          exact hsid ▸ List.mem_map_of_mem _ hsS
        have hcchild : c ∈ childIds S i := childIds_mem_intro hnd hcid hpc hi0 hi
        rw [if_pos ⟨c, hcchild, by simpa using hc⟩]
      · rw [if_neg (fun h => him h.1)]
        rw [if_neg]
        rintro ⟨c, hcmem, hcq⟩
        obtain ⟨hpc, hi0, hcid⟩ := childIds_mem_inv hnd hcmem
        obtain ⟨hch, -, -⟩ := chain_unfold (walkDone_of_mem hW hcid) hpc hi0
        exact him (mem_selfChain_trans hwx (of_decide_eq_true hcq) hch)
  · have hbeq : ¬ (i == x) = true := by
      simp only [beq_iff_eq]
      exact fun h => hx (h ▸ hi)
    rw [if_neg (fun h => hx h.2), if_neg hbeq]
    have hsum : (((childIds S i).map (List.count x ∘ descList S F)).sum) = 0 := by
      apply List.sum_eq_zero
      intro y hy
      obtain ⟨c, _, rfl⟩ := List.mem_map.mp hy
      simp only [Function.comp_apply]
      rw [count_descList hnd, if_neg (fun h => hx h.2)]
    rw [hsum]

/-! ### Claim C2: from the built forest to the traversal -/

theorem flatten_map_perm {f g : α → List β} :
    ∀ {l : List α}, (∀ a ∈ l, (f a).Perm (g a)) →
      ((l.map f).flatten).Perm ((l.map g).flatten) := by
  intro l
  induction l with
  | nil => intro _; exact List.Perm.refl _
  | cons a r ih =>
    intro h
    simp only [List.map_cons, List.flatten_cons]
    exact (h a (List.mem_cons_self _ _)).append (ih fun b hb => h b (List.mem_cons_of_mem _ hb))

theorem preorder_perm {S : List Sec} {F : Nat} (hnd : (S.map Sec.id).Nodup)
    (hW : WalksComplete S F) :
    ∀ fuel i, i ∈ S.map Sec.id →
      (∀ x ∈ S.map Sec.id, i ∈ selfChain S F x → dpt S F x < dpt S F i + fuel) →
      (preorder S fuel i).Perm (descList S F i) := by
  intro fuel
  induction fuel with
  | zero =>
    intro i hi hb
    exact absurd (hb i hi (List.mem_cons_self _ _)) (by omega)
  | succ f ih =>
    intro i hi hb
    have hD := descList_perm hnd hW hi
    refine List.Perm.trans ?_ hD.symm
    have hpre : preorder S (f + 1) i = i :: ((childIds S i).map (preorder S f)).flatten := rfl
    rw [hpre]
    refine List.Perm.cons i ?_
    apply flatten_map_perm
    intro c hc
    obtain ⟨hpc, hi0, hcid⟩ := childIds_mem_inv hnd hc
    apply ih c hcid
    intro x hx hcx
    have hwc : walkDone S F c := walkDone_of_mem hW hcid
    obtain ⟨hch, -, hd⟩ := chain_unfold hwc hpc hi0
    have hix : i ∈ selfChain S F x := mem_selfChain_trans (walkDone_of_mem hW hx) hcx hch
    have := hb x hx hix
    omega

theorem omap_map_rel {g : α → Option β} {h1 : β → γ} {h2 : α → γ}
    (hrel : ∀ a y, g a = some y → h1 y = h2 a) :
    ∀ {l : List α} {ys : List β}, omap g l = some ys → ys.map h1 = l.map h2 := by
  intro l
  induction l with
  | nil =>
    intro ys h
    cases h
    rfl
  | cons a r ih =>
    intro ys h
    unfold omap at h
    cases ha : g a with
    | none => rw [ha] at h; cases h
    | some y =>
      rw [ha] at h
      cases hr : omap g r with
      | none => rw [hr] at h; cases h
      | some ys' =>
        rw [hr] at h
        cases h
        simp [List.map_cons, hrel a y ha, ih hr]

theorem flatten_mk (i : Nat) (n : String) (p : Option Nat) (cs : List SNode) :
    flatten (SNode.mk i n p cs) = i :: (cs.map flatten).flatten := by
  rw [flatten]
  congr 1
  rw [List.attach_map_val cs flatten]

theorem buildNode_flatten {S : List Sec} :
    ∀ {fuel i : Nat} {t : SNode}, buildNode S fuel i = some t →
      flatten t = preorder S fuel i := by
  intro fuel
  induction fuel with
  | zero =>
    intro i t h
    cases h
  | succ f ih =>
    intro i t h
    unfold buildNode at h
    cases hf : findSec S i with
    | none => rw [hf] at h; cases h
    | some s =>
      rw [hf] at h
      obtain ⟨cs, hcs, rfl⟩ := Option.map_eq_some'.mp h
      rw [flatten_mk]
      have hkids : cs.map flatten = (childIds S i).map (preorder S f) :=
        omap_map_rel (fun a y hy => ih hy) hcs
      rw [hkids]
      rfl

/-! ### Claim C2: roots partition the forest -/

theorem findSec_none {S : List Sec} {q : Nat} (h : ∀ t ∈ S, t.id ≠ q) :
    findSec S q = none := by
  unfold findSec
  rw [List.find?_eq_none]
  intro t ht
  simpa using h t (List.mem_reverse.mp ht)

theorem root_exists {S : List Sec} {F : Nat} (hnd : (S.map Sec.id).Nodup)
    (hW : WalksComplete S F) :
    ∀ n x, dpt S F x = n → x ∈ S.map Sec.id →
      ∃ r ∈ rootIds S, r ∈ selfChain S F x := by
  intro n
  induction n using Nat.strong_induction_on with
  | _ n ih =>
    intro x hdx hx
    obtain ⟨s, hsS, rfl⟩ := List.mem_map.mp hx
    cases hatt : attachB S s with
    | false =>
      exact ⟨s.id, mem_rootIds_iff.mpr ⟨s, hsS, rfl, hatt⟩, List.mem_cons_self _ _⟩
    | true =>
      obtain ⟨q, hq1, hq2, t, htS, htq⟩ := attachB_true hatt
      have hpar : parentOf S s.id = some q := (parentOf_eq hnd hsS).trans hq1
      have hwx : walkDone S F s.id := hW s hsS
      obtain ⟨hch, hwq, hd⟩ := chain_unfold hwx hpar hq2
      have hqid : q ∈ S.map Sec.id := htq ▸ List.mem_map_of_mem _ htS
      obtain ⟨r, hr, hrq⟩ := ih (dpt S F q) (by omega) q rfl hqid
      refine ⟨r, hr, List.mem_cons_of_mem _ ?_⟩
      rw [hch]
      rcases List.mem_cons.mp hrq with rfl | hrq'
      · exact List.mem_cons_self _ _
      · exact List.mem_cons_of_mem _ hrq'

theorem root_chain_short {S : List Sec} {F : Nat} (hnd : (S.map Sec.id).Nodup)
    {r : Nat} (hw : walkDone S F r) (hr : r ∈ rootIds S) :
    chainOf S F r = [] ∨ ∃ q, chainOf S F r = [q] ∧ q ∉ S.map Sec.id := by
  obtain ⟨s, hsS, hsid, hatt⟩ := mem_rootIds_iff.mp hr
  subst hsid
  have hpar : parentOf S s.id = s.parent_id := parentOf_eq hnd hsS
  cases hp : s.parent_id with
  | none => exact Or.inl (chainOf_of_parent_none (hpar.trans hp))
  | some q =>
    by_cases hq0 : q = 0
    · subst hq0
      exact Or.inl (chainOf_of_parent_zero (hpar.trans hp))
    · have hqnot : ∀ t ∈ S, t.id ≠ q := by
        intro t htS htq
        exact absurd (attachB_intro hp hq0 ⟨t, htS, htq⟩) (by simp [hatt])
      have hqid : q ∉ S.map Sec.id := by
        intro hmem
        obtain ⟨t, htS, htq⟩ := List.mem_map.mp hmem
        exact hqnot t htS htq
      obtain ⟨hch, -, -⟩ := chain_unfold hw (hpar.trans hp) hq0
      have hqchain : chainOf S F q = [] := by
        apply chainOf_of_parent_none
        unfold parentOf
        rw [findSec_none hqnot]
        rfl
      rw [hqchain] at hch
      exact Or.inr ⟨q, hch, hqid⟩

theorem root_unique_aux {S : List Sec} {F : Nat} (hnd : (S.map Sec.id).Nodup)
    {x r1 r2 : Nat} (hwx : walkDone S F x)
    (h1 : r1 ∈ rootIds S) (h2 : r2 ∈ rootIds S)
    (hc1 : r1 ∈ selfChain S F x) (hc2 : r2 ∈ selfChain S F x)
    (hlen : (r1 :: chainOf S F r1).length < (r2 :: chainOf S F r2).length) : False := by
  obtain ⟨hs1, hw1⟩ := selfChain_suffix hwx hc1
  obtain ⟨hs2, hw2⟩ := selfChain_suffix hwx hc2
  have hsub : (r1 :: chainOf S F r1) <:+ chainOf S F r2 := by
    have hstep : chainOf S F r2 <:+ selfChain S F x :=
      (List.suffix_cons r2 _).trans hs2
    apply suffix_total hs1 hstep
    simp only [List.length_cons] at hlen
    simp only [List.length_cons]
    omega
  have hr1mem : r1 ∈ chainOf S F r2 := hsub.subset (List.mem_cons_self _ _)
  rcases root_chain_short hnd hw2 h2 with hnil | ⟨q, hq, hqnot⟩
  · rw [hnil] at hr1mem
    cases hr1mem
  · rw [hq] at hr1mem
    have : r1 = q := by simpa using hr1mem
    subst this
    exact hqnot (rootIds_sub h1)

theorem root_unique {S : List Sec} {F : Nat} (hnd : (S.map Sec.id).Nodup)
    {x r1 r2 : Nat} (hwx : walkDone S F x)
    (h1 : r1 ∈ rootIds S) (h2 : r2 ∈ rootIds S)
    (hc1 : r1 ∈ selfChain S F x) (hc2 : r2 ∈ selfChain S F x) : r1 = r2 := by
  obtain ⟨hs1, hw1⟩ := selfChain_suffix hwx hc1
  obtain ⟨hs2, hw2⟩ := selfChain_suffix hwx hc2
  rcases Nat.lt_trichotomy (r1 :: chainOf S F r1).length (r2 :: chainOf S F r2).length
    with hlt | heq | hgt
  · exact absurd (root_unique_aux hnd hwx h1 h2 hc1 hc2 hlt) (fun h => h)
  · have := suffix_eq_of_length hs1 hs2 heq
    exact (List.cons.injEq _ _ _ _ ▸ this).1
  · exact absurd (root_unique_aux hnd hwx h2 h1 hc2 hc1 hgt) (fun h => h)

/-- Claim C2: for a section list with no duplicate ids whose ancestor
walks all terminate (no cycles; fuel `F` bounds every walk), flattening
the forest built by `buildTree` in pre-order and collecting ids yields a
permutation of the input id list — no section is dropped and none is
duplicated. -/
theorem tree_roundtrip {S : List Sec} {F : Nat} (hnd : (S.map Sec.id).Nodup)
    (hW : WalksComplete S F) {forest : List SNode}
    (hb : buildForest S (F + 1) = some forest) :
    ((forest.map flatten).flatten).Perm (S.map Sec.id) := by
  have hmap : forest.map flatten = (rootIds S).map (preorder S (F + 1)) :=
    omap_map_rel (fun a y hy => buildNode_flatten hy) hb
  rw [hmap]
  have h1 : (((rootIds S).map (preorder S (F + 1))).flatten).Perm
      (((rootIds S).map (descList S F)).flatten) := by
    apply flatten_map_perm
    intro r hr
    apply preorder_perm hnd hW (F + 1) r (rootIds_sub hr)
    intro x hx _
    have hdx : dpt S F x ≤ F := dpt_le_fuel (walkDone_of_mem hW hx)
    omega
  refine h1.trans ?_
  rw [List.perm_iff_count]
  intro x
  rw [List.count_flatten, List.map_map]
  by_cases hx : x ∈ S.map Sec.id
  · have hwx : walkDone S F x := walkDone_of_mem hW hx
    have hterm : ((rootIds S).map (List.count x ∘ descList S F)) =
        ((rootIds S).map (fun r => if decide (r ∈ selfChain S F x) = true then 1 else 0)) := by
      apply List.map_congr_left
      intro r _
      simp only [Function.comp_apply]
      rw [count_descList hnd]
      by_cases hrx : r ∈ selfChain S F x
      · rw [if_pos ⟨hrx, hx⟩, if_pos (by simpa using hrx)]
      · rw [if_neg (fun h => hrx h.1), if_neg (by simpa using hrx)]
    rw [hterm, sum_indicator_eq_countP]
    have huniq : ∀ a ∈ rootIds S, decide (a ∈ selfChain S F x) = true →
        ∀ b ∈ rootIds S, decide (b ∈ selfChain S F x) = true → a = b := by
      intro a ha hqa b hb hqb
      exact root_unique hnd hwx ha hb (of_decide_eq_true hqa) (of_decide_eq_true hqb)
    rw [countP_eq_one_of_unique (rootIds_nodup hnd) huniq]
    obtain ⟨r, hr, hrx⟩ := root_exists hnd hW (dpt S F x) x rfl hx
    rw [if_pos ⟨r, hr, by simpa using hrx⟩]
    exact (nodup_count_eq_one hnd hx).symm
  · have hsum : (((rootIds S).map (List.count x ∘ descList S F)).sum) = 0 := by
      apply List.sum_eq_zero
      intro y hy
      obtain ⟨r, _, rfl⟩ := List.mem_map.mp hy
      simp only [Function.comp_apply]
      rw [count_descList hnd, if_neg (fun h => hx h.2)]
    rw [hsum, Eq.comm, List.count_eq_zero]
    exact hx

/-- Witness for C2 at `exSecs` (ids 1, 2, 3; 2 and 3 children of 1):
walks complete with fuel 3, the built forest is `exForest`, and its
pre-order id list is a permutation of the input ids. -/
theorem tree_roundtrip_witness :
    ((exForest.map flatten).flatten).Perm (exSecs.map Sec.id) :=
  tree_roundtrip (F := 3) (by decide)
    (by
      unfold WalksComplete walkDone
      decide)
    rfl
